import Mathlib

/-!
Shallow embedding of `src/lib.rs` of kallehed/BinaryHeap-Rust: a generic
min-heap stored in a growable array (`Vec<T>`), here modelled as a `List α`
over a linearly ordered type.  Rust indexing `self.vec[i]` is modelled by
`List.getD i default`; in every embedded operation all reads are in bounds,
matching the panic-free executions of the source.  `usize` subtraction is
checked (Rust defines overflow as a program error and panics in debug
builds), so `from_unsorted_vec`, whose loop-bound computation `(len - 2)`
underflows for `len < 2`, is modelled as returning `Except.error` with the
Rust overflow panic message in that case.
-/

set_option linter.unusedSectionVars false

namespace BinaryHeap

variable {α : Type} [LinearOrder α] [Inhabited α]

/-- `self.vec.swap(i, j)` of `Vec::swap`: exchange the entries at `i` and `j`. -/
def listSwap (v : List α) (i j : Nat) : List α :=
  (v.set i (v.getD j default)).set j (v.getD i default)

/-- `pub fn len(&self) -> usize { self.vec.len() }` (lines 11–13). -/
def len (v : List α) : Nat := v.length

/-- `pub fn is_empty(&self) -> bool { self.vec.is_empty() }` (lines 14–16). -/
def is_empty (v : List α) : Bool := v.isEmpty

/-- `fn parent_idx(you: usize) -> usize { (you - 1) >> 1 }` (lines 28–31).
The `debug_assert!(you != 0)` is an internal consistency check; every call
site passes `you ≠ 0`. -/
def parent_idx (you : Nat) : Nat := (you - 1) / 2

/-- `fn child_idxs(you: usize) -> (usize, usize) { ((you << 1) + 1, (you << 1) + 2) }`
(lines 32–34). -/
def child_idxs (you : Nat) : Nat × Nat := (2 * you + 1, 2 * you + 2)

/-- `fn higher_in_tree(&self, you, they) -> bool { self.vec[you] < self.vec[they] }`
(lines 35–37). -/
def higher_in_tree (v : List α) (you they : Nat) : Bool :=
  v.getD you default < v.getD they default

/-- `fn flow_up(&mut self, mut idx: usize)` (lines 38–51): each loop
iteration is one recursive call. -/
def flow_up (v : List α) (idx : Nat) : List α :=
  if idx = 0 then v
  else
    let p := parent_idx idx
    if higher_in_tree v idx p then flow_up (listSwap v p idx) p
    else v
termination_by idx
decreasing_by simp only [parent_idx]; omega

/-- The child selection of one `flow_down` loop iteration (lines 56–62):
`none` when the node has no children, otherwise the `highest_child_idx`. -/
def selectedChild (v : List α) (idx : Nat) : Option Nat :=
  let (child1_idx, child2_idx) := child_idxs idx
  if child1_idx ≥ v.length then none
  else if child2_idx ≥ v.length || higher_in_tree v child1_idx child2_idx then
    some child1_idx
  else some child2_idx

/-- One iteration of the `flow_down` loop body (lines 55–71): `none` means
the loop returns, `some (v', idx')` means it swapped and continues at `idx'`. -/
def flowDownStep (v : List α) (idx : Nat) : Option (List α × Nat) :=
  match selectedChild v idx with
  | none => none
  | some highest_child_idx =>
    if higher_in_tree v idx highest_child_idx then none
    else some (listSwap v idx highest_child_idx, highest_child_idx)

theorem length_listSwap (v : List α) (i j : Nat) : (listSwap v i j).length = v.length := by
  simp [listSwap]

theorem selectedChild_some {v : List α} {idx c : Nat}
    (h : selectedChild v idx = some c) :
    idx < c ∧ c < v.length ∧ (c = 2 * idx + 1 ∨ c = 2 * idx + 2) := by
  simp only [selectedChild, child_idxs] at h
  split at h
  · exact absurd h (by simp)
  · split at h
    · injection h with h; omega
    · rename_i hcond
      injection h with h
      simp only [Bool.or_eq_true, decide_eq_true_eq, not_or, ge_iff_le, not_le] at hcond
      omega

theorem flowDownStep_measure {v v' : List α} {idx idx' : Nat}
    (h : flowDownStep v idx = some (v', idx')) :
    v'.length = v.length ∧ idx < idx' ∧ idx' < v.length := by
  unfold flowDownStep at h
  split at h
  · exact absurd h (by simp)
  · rename_i c hc
    split at h
    · exact absurd h (by simp)
    · obtain ⟨h1, h2, _⟩ := selectedChild_some hc
      injection h with h
      rw [Prod.mk.injEq] at h
      obtain ⟨rfl, rfl⟩ := h
      exact ⟨length_listSwap .., h1, h2⟩

/-- `fn flow_down(&mut self, mut idx: usize)` (lines 54–73): each loop
iteration is one `flowDownStep`. -/
def flow_down (v : List α) (idx : Nat) : List α :=
  match h : flowDownStep v idx with
  | none => v
  | some (v', idx') => flow_down v' idx'
termination_by v.length - idx
decreasing_by
  obtain ⟨h1, h2, h3⟩ := flowDownStep_measure h
  omega

/-- `fn flow_down_rec(&mut self, idx: usize, vec_len: usize)` (lines 75–96). -/
def flow_down_rec (v : List α) (idx vec_len : Nat) : List α :=
  let left_child_idx := 2 * idx + 1
  if left_child_idx ≥ vec_len then v
  else
    let right_child_idx := left_child_idx + 1
    let child_idx :=
      if right_child_idx ≥ vec_len then left_child_idx
      else if v.getD left_child_idx default < v.getD right_child_idx default then
        left_child_idx
      else right_child_idx
    if v.getD idx default > v.getD child_idx default then v
    else flow_down_rec (listSwap v idx child_idx) child_idx vec_len
termination_by vec_len - idx
decreasing_by
  split <;> [omega; (split <;> omega)]

/-- `pub fn push(&mut self, val: T)` (lines 97–101). -/
def push (v : List α) (val : α) : List α :=
  let idx := v.length
  flow_up (v ++ [val]) idx

/-- `pub fn pop(&mut self) -> T` (lines 104–115).  The `assert!` on an empty
heap is modelled as `Except.error` with the panic message; `self.vec.pop()`
is modelled by reading the last entry and dropping it. -/
def pop (v : List α) : Except String (α × List α) :=
  if v.isEmpty then .error "Can't pop with no elements in binary heap!"
  else
    let e := v.length - 1
    let v1 := listSwap v 0 e
    let return_val := v1.getD e default
    .ok (return_val, flow_down v1.dropLast 0)

/-- `pub fn peek(&mut self) -> &T` (lines 117–123). -/
def peek (v : List α) : Except String α :=
  if v.isEmpty then .error "Can't peek with no elements in binary heap!"
  else .ok (v.getD 0 default)

/-- The loop `for idx in (0..=last_node_with_child).rev() { this.flow_down(idx) }`
(lines 128–130): `heapifyLoop v n` runs `flow_down` at `n, n-1, …, 0`. -/
def heapifyLoop : List α → Nat → List α
  | v, 0 => flow_down v 0
  | v, n + 1 => heapifyLoop (flow_down v (n + 1)) n

/-- `pub fn from_unsorted_vec(vec: Vec<T>) -> Self` (lines 124–132).  The
bound `let last_node_with_child = (len - 2) >> 1` underflows on `usize`
when `len < 2`; per the checked (debug) semantics of Rust integer
subtraction that is a panic, modelled as `Except.error`. -/
def from_unsorted_vec (vec : List α) : Except String (List α) :=
  let len := vec.length
  if len < 2 then .error "attempt to subtract with overflow"
  else
    let last_node_with_child := (len - 2) / 2
    .ok (heapifyLoop vec last_node_with_child)

/-! ### Basic facts about `listSwap` -/

theorem set_getD_self : ∀ (v : List α) (i : Nat), i < v.length →
    v.set i (v.getD i default) = v
  | _ :: _, 0, _ => rfl
  | a :: t, i + 1, h => by
    simp only [List.getD_cons_succ, List.set_cons_succ, List.cons.injEq, true_and]
    exact set_getD_self t i (by simpa using h)

theorem listSwap_comm (v : List α) (i j : Nat) : listSwap v i j = listSwap v j i := by
  rcases eq_or_ne i j with rfl | hne
  · rfl
  · unfold listSwap
    exact List.set_comm _ _ _ hne

theorem getD_listSwap_right {v : List α} {i j : Nat} (hj : j < v.length) :
    (listSwap v i j).getD j default = v.getD i default := by
  have hj' : j < ((v.set i (v.getD j default))).length := by simpa using hj
  rw [listSwap, List.getD_eq_getElem _ _ (by simpa using hj), List.getElem_set_self]

theorem getD_listSwap_left {v : List α} {i j : Nat} (hi : i < v.length) :
    (listSwap v i j).getD i default = v.getD j default := by
  rw [listSwap_comm]
  exact getD_listSwap_right hi

theorem getD_listSwap_ne {v : List α} {i j k : Nat} (hki : k ≠ i) (hkj : k ≠ j) :
    (listSwap v i j).getD k default = v.getD k default := by
  rcases Nat.lt_or_ge k v.length with hk | hk
  · rw [listSwap, List.getD_eq_getElem _ _ (by simpa using hk),
      List.getElem_set_ne (Ne.symm hkj), List.getElem_set_ne (Ne.symm hki),
      List.getD_eq_getElem _ _ hk]
  · have h1 : (listSwap v i j).length ≤ k := by simpa [listSwap] using hk
    rw [List.getD_eq_default _ _ h1, List.getD_eq_default _ _ hk]

theorem cons_set_perm (a : α) : ∀ (t : List α) (j : Nat), j < t.length →
    (t.getD j default :: t.set j a).Perm (a :: t)
  | b :: t', 0, _ => List.Perm.swap _ _ _
  | b :: t', j + 1, h => by
    simp only [List.getD_cons_succ, List.set_cons_succ]
    exact ((List.Perm.swap _ _ _).trans
      ((cons_set_perm a t' j (by simpa using h)).cons b)).trans (List.Perm.swap _ _ _)

theorem listSwap_perm : ∀ (v : List α) (i j : Nat), i < v.length → j < v.length →
    (listSwap v i j).Perm v
  | _ :: _, 0, 0, _, _ => by
    simp only [listSwap, List.getD_cons_zero, List.set_cons_zero]
    exact List.Perm.refl _
  | a :: t, 0, j + 1, _, hj => by
    simp only [listSwap, List.getD_cons_succ, List.getD_cons_zero, List.set_cons_zero,
      List.set_cons_succ]
    exact cons_set_perm a t j (by simpa using hj)
  | a :: t, i + 1, 0, hi, _ => by
    rw [listSwap_comm]
    exact listSwap_perm (a :: t) 0 (i + 1) (by simp) hi
  | a :: t, i + 1, j + 1, hi, hj => by
    simp only [listSwap, List.getD_cons_succ, List.set_cons_succ]
    exact (listSwap_perm t i j (by simpa using hi) (by simpa using hj)).cons a

/-! ### Step-counting (fuel) versions of the three repair loops.

`flowUpFuel`, `flowDownFuel` and `flowDownRecFuel` run the same loop bodies
as `flow_up`, `flow_down` and `flow_down_rec` but give up (returning `none`)
after `fuel` iterations; they witness that each loop reaches its exit
condition within an explicit number of steps. -/

def flowUpFuel : Nat → List α → Nat → Option (List α)
  | 0, _, _ => none
  | fuel + 1, v, idx =>
    if idx = 0 then some v
    else
      let p := parent_idx idx
      if higher_in_tree v idx p then flowUpFuel fuel (listSwap v p idx) p
      else some v

def flowDownFuel : Nat → List α → Nat → Option (List α)
  | 0, _, _ => none
  | fuel + 1, v, idx =>
    match flowDownStep v idx with
    | none => some v
    | some (v', idx') => flowDownFuel fuel v' idx'

def flowDownRecFuel : Nat → List α → Nat → Nat → Option (List α)
  | 0, _, _, _ => none
  | fuel + 1, v, idx, vec_len =>
    let left_child_idx := 2 * idx + 1
    if left_child_idx ≥ vec_len then some v
    else
      let right_child_idx := left_child_idx + 1
      let child_idx :=
        if right_child_idx ≥ vec_len then left_child_idx
        else if v.getD left_child_idx default < v.getD right_child_idx default then
          left_child_idx
        else right_child_idx
      if v.getD idx default > v.getD child_idx default then some v
      else flowDownRecFuel fuel (listSwap v idx child_idx) child_idx vec_len

theorem flowUpFuel_spec : ∀ (fuel : Nat) (v : List α) (idx : Nat), idx < fuel →
    flowUpFuel fuel v idx = some (flow_up v idx) := by
  intro fuel
  induction fuel with
  | zero => omega
  | succ n ih =>
    intro v idx h
    rw [flow_up]
    simp only [flowUpFuel]
    split
    · rfl
    · rename_i h0
      split
      · exact ih _ _ (by simp only [parent_idx]; omega)
      · rfl

theorem flowDownFuel_spec : ∀ (fuel : Nat) (v : List α) (idx : Nat),
    v.length - idx < fuel → flowDownFuel fuel v idx = some (flow_down v idx) := by
  intro fuel
  induction fuel with
  | zero => omega
  | succ n ih =>
    intro v idx h
    rw [flow_down]
    simp only [flowDownFuel]
    rcases hstep : flowDownStep v idx with _ | ⟨v', idx'⟩
    · rfl
    · obtain ⟨h1, h2, h3⟩ := flowDownStep_measure hstep
      exact ih _ _ (by omega)

theorem flowDownRecFuel_spec : ∀ (fuel : Nat) (v : List α) (idx vec_len : Nat),
    vec_len - idx < fuel → flowDownRecFuel fuel v idx vec_len = some (flow_down_rec v idx vec_len) := by
  intro fuel
  induction fuel with
  | zero => omega
  | succ n ih =>
    intro v idx vec_len h
    rw [flow_down_rec]
    simp only [flowDownRecFuel]
    split
    · rfl
    · rename_i hc
      split
      · split
        · rfl
        · exact ih _ _ _ (by omega)
      · split
        · split
          · rfl
          · exact ih _ _ _ (by omega)
        · split
          · rfl
          · exact ih _ _ _ (by omega)

/-- `flow_up` rewritten as a computation that the kernel can evaluate. -/
theorem flow_up_eq_fuel (v : List α) (idx : Nat) :
    flow_up v idx = (flowUpFuel (idx + 1) v idx).getD v := by
  rw [flowUpFuel_spec (idx + 1) v idx (by omega)]
  rfl

/-- `flow_down` rewritten as a computation that the kernel can evaluate. -/
theorem flow_down_eq_fuel (v : List α) (idx : Nat) :
    flow_down v idx = (flowDownFuel (v.length + 1) v idx).getD v := by
  rw [flowDownFuel_spec (v.length + 1) v idx (by omega)]
  rfl

/-- `flow_down_rec` rewritten as a computation that the kernel can evaluate. -/
theorem flow_down_rec_eq_fuel (v : List α) (idx vec_len : Nat) :
    flow_down_rec v idx vec_len = (flowDownRecFuel (vec_len + 1) v idx vec_len).getD v := by
  rw [flowDownRecFuel_spec (vec_len + 1) v idx vec_len (by omega)]
  rfl

/-! ### Length and multiset preservation of the repair routines -/

theorem length_flow_up : ∀ (v : List α) (idx : Nat), (flow_up v idx).length = v.length := by
  intro v idx
  induction v, idx using flow_up.induct with
  | case1 v => rw [flow_up]; simp
  | case2 v idx h0 p hs ih =>
    rw [flow_up]
    simp only [if_neg h0, hs, if_pos]
    rw [ih, length_listSwap]
  | case3 v idx h0 p hs =>
    rw [flow_up]
    simp only [if_neg h0, hs]
    simp

theorem perm_flow_up : ∀ (v : List α) (idx : Nat), idx < v.length → (flow_up v idx).Perm v := by
  intro v idx
  induction v, idx using flow_up.induct with
  | case1 v => intro _; rw [flow_up]; simp
  | case2 v idx h0 p hs ih =>
    intro h
    rw [flow_up]
    simp only [if_neg h0, hs, if_pos]
    have hpd : p = parent_idx idx := rfl
    have hp : p < idx := by rw [hpd]; unfold parent_idx; omega
    refine (ih ?_).trans (listSwap_perm v p idx (by omega) h)
    rw [length_listSwap]
    omega
  | case3 v idx h0 p hs =>
    intro _
    rw [flow_up]
    simp only [if_neg h0, hs]
    simp

theorem length_flow_down : ∀ (v : List α) (idx : Nat), (flow_down v idx).length = v.length := by
  intro v idx
  induction v, idx using flow_down.induct with
  | case1 v idx hstep => rw [flow_down, hstep]
  | case2 v idx v' idx' hstep ih =>
    rw [flow_down, hstep]
    obtain ⟨h1, _, _⟩ := flowDownStep_measure hstep
    rw [ih, h1]

theorem perm_flow_down : ∀ (v : List α) (idx : Nat), (flow_down v idx).Perm v := by
  intro v idx
  induction v, idx using flow_down.induct with
  | case1 v idx hstep => rw [flow_down, hstep]
  | case2 v idx v' idx' hstep ih =>
    rw [flow_down, hstep]
    have hmeas := flowDownStep_measure hstep
    have hswap : v' = listSwap v idx idx' := by
      unfold flowDownStep at hstep
      split at hstep
      · exact absurd hstep (by simp)
      · split at hstep
        · exact absurd hstep (by simp)
        · injection hstep with hstep
          rw [Prod.mk.injEq] at hstep
          rw [← hstep.1, hstep.2]
    obtain ⟨hm1, hm2, hm3⟩ := hmeas
    subst hswap
    exact ih.trans (listSwap_perm v idx idx' (by omega) (by omega))

/-! ### The heap-order invariant -/

/-- The heap-order invariant (spec §3): for every index `i` with a valid
parent, `element[parent(i)] ≤ element[i]`. -/
def heapInv (v : List α) : Prop :=
  ∀ i, i < v.length → 0 < i → v.getD (parent_idx i) default ≤ v.getD i default

instance heapInvDecidable (v : List α) : Decidable (heapInv v) :=
  decidable_of_iff
    (∀ i, i < v.length → 0 < i → v.getD (parent_idx i) default ≤ v.getD i default) Iff.rfl

theorem parent_idx_lt {i : Nat} (h : 0 < i) : parent_idx i < i := by
  unfold parent_idx; omega

theorem parent_idx_eq_iff {i j : Nat} (hi : 0 < i) :
    parent_idx i = j ↔ i = 2 * j + 1 ∨ i = 2 * j + 2 := by
  unfold parent_idx; omega

/-- In a valid heap the root is a minimum. -/
theorem heapInv_root_le {v : List α} (hv : heapInv v) :
    ∀ i, i < v.length → v.getD 0 default ≤ v.getD i default := by
  intro i
  induction i using Nat.strong_induction_on with
  | _ i ih =>
    intro hi
    rcases Nat.eq_zero_or_pos i with rfl | hpos
    · exact le_refl _
    · exact le_trans (ih (parent_idx i) (parent_idx_lt hpos)
        (lt_trans (parent_idx_lt hpos) hi)) (hv i hi hpos)

/-- The child selected by `flow_down` is a minimal child. -/
theorem selectedChild_min {v : List α} {idx hc : Nat}
    (h : selectedChild v idx = some hc) :
    ∀ i, i < v.length → parent_idx i = idx → 0 < i →
      v.getD hc default ≤ v.getD i default := by
  intro i hi hpi hpos
  rcases (parent_idx_eq_iff hpos).mp hpi with rfl | rfl
  all_goals {
    simp only [selectedChild, child_idxs] at h
    split at h
    · exact absurd h (by simp)
    · rename_i hout
      split at h
      · rename_i hcond
        injection h with h
        subst h
        rcases (Bool.or_eq_true _ _).mp hcond with hge | hlt
        · simp only [decide_eq_true_eq] at hge
          first
            | exact le_refl _
            | omega
        · simp only [higher_in_tree, decide_eq_true_eq] at hlt
          first
            | exact le_refl _
            | exact le_of_lt hlt
      · rename_i hcond
        injection h with h
        subst h
        simp only [Bool.or_eq_true, decide_eq_true_eq, not_or, higher_in_tree] at hcond
        first
          | exact le_refl _
          | exact le_of_not_lt (by simpa using hcond.2)
  }

/-- Correctness of `flow_up`: if the invariant holds everywhere except
possibly on the edge from `j`'s parent to `j`, and `j`'s parent is already
`≤` both nodes below `j`, then `flow_up v j` restores the full invariant. -/
theorem flow_up_inv : ∀ (v : List α) (j : Nat), (j < v.length ∨ j = 0) →
    (∀ i, i < v.length → 0 < i → i ≠ j →
      v.getD (parent_idx i) default ≤ v.getD i default) →
    (0 < j → ∀ i, i < v.length → parent_idx i = j →
      v.getD (parent_idx j) default ≤ v.getD i default) →
    heapInv (flow_up v j) := by
  intro v j
  induction v, j using flow_up.induct with
  | case1 v =>
    intro _ h1 _
    rw [flow_up]
    simp only [if_pos rfl]
    intro i hi hpos
    exact h1 i hi hpos (by omega)
  | case2 v idx h0 p hs ih =>
    intro hj h1 h2
    rw [flow_up]
    simp only [if_neg h0, hs, if_pos]
    have hpd : p = parent_idx idx := rfl
    have hpidx : p < idx := hpd ▸ parent_idx_lt (Nat.pos_of_ne_zero h0)
    have hidx : idx < v.length := by
      rcases hj with h | h
      · exact h
      · exact absurd h h0
    have hplen : p < v.length := lt_trans hpidx hidx
    have hs' : v.getD idx default < v.getD p default := by
      simpa [higher_in_tree] using hs
    -- getD on the swapped list
    have wL : (listSwap v p idx).length = v.length := length_listSwap ..
    have wp : (listSwap v p idx).getD p default = v.getD idx default :=
      getD_listSwap_left hplen
    have widx : (listSwap v p idx).getD idx default = v.getD p default :=
      getD_listSwap_right hidx
    have wne : ∀ k, k ≠ p → k ≠ idx →
        (listSwap v p idx).getD k default = v.getD k default :=
      fun k hk1 hk2 => getD_listSwap_ne hk1 hk2
    apply ih
    · left; rw [wL]; exact hplen
    · -- invariant away from p on the swapped list
      intro i hi hpos hne
      rw [wL] at hi
      rcases eq_or_ne i idx with rfl | hni
      · -- the moved-up element sits at `p = parent_idx idx`
        rw [← hpd, wp, widx]
        exact le_of_lt hs'
      · have hvi : (listSwap v p idx).getD i default = v.getD i default := wne i hne hni
        rcases eq_or_ne (parent_idx i) p with hip | hip
        · -- sibling of `idx` below `p`
          rw [hip, wp, hvi]
          have h3 := h1 i hi hpos hni
          rw [hip] at h3
          exact le_trans (le_of_lt hs') h3
        · rcases eq_or_ne (parent_idx i) idx with hii | hii
          · -- a node below `idx`
            rw [hii, widx, hvi]
            have h3 := h2 (Nat.pos_of_ne_zero h0) i hi hii
            rw [← hpd] at h3
            exact h3
          · rw [wne _ hip hii, hvi]
            exact h1 i hi hpos hni
    · -- the grandparent condition at `p`
      intro hp0 i hi hpi
      rw [wL] at hi
      have hppne : parent_idx p ≠ p := Nat.ne_of_lt (parent_idx_lt hp0)
      have hppnidx : parent_idx p ≠ idx := Nat.ne_of_lt (lt_trans (parent_idx_lt hp0) hpidx)
      have hpp : (listSwap v p idx).getD (parent_idx p) default
          = v.getD (parent_idx p) default := wne _ hppne hppnidx
      have hip : 0 < i := by
        rcases (parent_idx_eq_iff (i := i) (j := p) (by
          by_contra hi0
          simp only [Nat.not_lt, Nat.le_zero] at hi0
          subst hi0
          simp only [parent_idx] at hpi
          omega)).mp hpi with h | h <;> omega
      rcases eq_or_ne i idx with rfl | hni
      · rw [hpp, widx]
        exact h1 p hplen hp0 (Nat.ne_of_lt hpidx)
      · have hnp : i ≠ p := by
          intro h
          rw [h] at hpi
          exact absurd hpi (Nat.ne_of_lt (parent_idx_lt (h ▸ hip)))
        rw [hpp, wne i hnp hni]
        have h3 := h1 i hi hip hni
        rw [hpi] at h3
        exact le_trans (h1 p hplen hp0 (Nat.ne_of_lt hpidx)) h3
  | case3 v idx h0 p hs =>
    intro _ h1 h2
    rw [flow_up]
    simp only [if_neg h0, hs]
    simp only [Bool.false_eq_true, if_false]
    intro i hi hpos
    rcases eq_or_ne i idx with rfl | hni
    · have hpd : p = parent_idx i := rfl
      have : ¬ v.getD i default < v.getD p default := by
        simpa [higher_in_tree] using hs
      rw [← hpd]
      exact le_of_not_lt this
    · exact h1 i hi hpos hni

/-- `push` preserves the heap-order invariant. -/
theorem push_heapInv {v : List α} (hv : heapInv v) (x : α) : heapInv (push v x) := by
  unfold push
  apply flow_up_inv
  · rcases Nat.eq_zero_or_pos v.length with h | h
    · right; exact h
    · left; simp
  · intro i hi hpos hne
    simp only [List.length_append, List.length_cons, List.length_nil] at hi
    have hilt : i < v.length := by omega
    rw [List.getD_append _ _ _ _ hilt,
      List.getD_append _ _ _ _ (lt_trans (parent_idx_lt hpos) hilt)]
    exact hv i hilt hpos
  · intro hpos i hi hpi
    have : 0 < i := by
      rcases Nat.eq_zero_or_pos i with rfl | h
      · simp only [parent_idx] at hpi; omega
      · exact h
    rcases (parent_idx_eq_iff this).mp hpi with rfl | rfl <;>
      (simp only [List.length_append, List.length_cons, List.length_nil] at hi; omega)
/-- Inversion of a stopping `flow_down` step. -/
theorem flowDownStep_none {v : List α} {idx : Nat} (h : flowDownStep v idx = none) :
    selectedChild v idx = none ∨
      ∃ hc, selectedChild v idx = some hc ∧
        v.getD idx default < v.getD hc default := by
  unfold flowDownStep at h
  rcases hsel : selectedChild v idx with _ | hc
  · exact Or.inl rfl
  · right
    simp only [hsel] at h
    split at h
    · rename_i hhi
      simp only [higher_in_tree, decide_eq_true_eq] at hhi
      exact ⟨hc, rfl, hhi⟩
    · exact absurd h (by simp)

/-- Inversion of a swapping `flow_down` step. -/
theorem flowDownStep_some_inv {v : List α} {idx : Nat} {v' : List α} {idx' : Nat}
    (h : flowDownStep v idx = some (v', idx')) :
    selectedChild v idx = some idx' ∧
      ¬ v.getD idx default < v.getD idx' default ∧ v' = listSwap v idx idx' := by
  unfold flowDownStep at h
  rcases hsel : selectedChild v idx with _ | hc
  · simp only [hsel] at h
    exact Option.noConfusion h
  · simp only [hsel] at h
    split at h
    · exact absurd h (by simp)
    · rename_i hhi
      injection h with h
      rw [Prod.mk.injEq] at h
      obtain ⟨h4, h5⟩ := h
      subst h5
      subst h4
      simp only [higher_in_tree, decide_eq_true_eq] at hhi
      exact ⟨rfl, hhi, rfl⟩

/-- Correctness of `flow_down`: if the invariant holds on every edge not
leaving `j`, and `j`'s parent is already `≤` both nodes below `j`, then
`flow_down v j` restores the full invariant. -/
theorem flow_down_inv : ∀ (v : List α) (j : Nat),
    (∀ i, i < v.length → 0 < i → parent_idx i ≠ j →
      v.getD (parent_idx i) default ≤ v.getD i default) →
    (0 < j → ∀ i, i < v.length → parent_idx i = j →
      v.getD (parent_idx j) default ≤ v.getD i default) →
    heapInv (flow_down v j) := by
  intro v j
  induction v, j using flow_down.induct with
  | case1 v idx hstep =>
    intro h1 _
    have hred : flow_down v idx = v := by rw [flow_down, hstep]
    rw [hred]
    intro i hi hpos
    rcases eq_or_ne (parent_idx i) idx with hpi | hpi
    · -- `i` is a child of `idx`, so the loop stopped with `idx` still higher
      rcases flowDownStep_none hstep with hsel | ⟨hc, hsel, hlt⟩
      · exfalso
        simp only [selectedChild, child_idxs] at hsel
        split at hsel
        · rename_i hout
          rcases (parent_idx_eq_iff hpos).mp hpi with rfl | rfl <;> omega
        · split at hsel <;> simp at hsel
      · rw [hpi]
        exact le_trans (le_of_lt hlt) (selectedChild_min hsel i hi hpi hpos)
    · exact h1 i hi hpos hpi
  | case2 v idx v' idx' hstep ih =>
    intro h1 h2
    have hred : flow_down v idx = flow_down v' idx' := by rw [flow_down, hstep]
    rw [hred]
    obtain ⟨hsel, hnlt, rfl⟩ := flowDownStep_some_inv hstep
    obtain ⟨hcgt, hclen, hcform⟩ := selectedChild_some hsel
    have hle : v.getD idx' default ≤ v.getD idx default := le_of_not_lt hnlt
    have hidxlen : idx < v.length := lt_trans hcgt hclen
    have hpc : parent_idx idx' = idx := by
      rcases hcform with rfl | rfl <;> (unfold parent_idx; omega)
    have wL : (listSwap v idx idx').length = v.length := length_listSwap ..
    have wi : (listSwap v idx idx').getD idx default = v.getD idx' default :=
      getD_listSwap_left hidxlen
    have wc : (listSwap v idx idx').getD idx' default = v.getD idx default :=
      getD_listSwap_right hclen
    have wne : ∀ k, k ≠ idx → k ≠ idx' →
        (listSwap v idx idx').getD k default = v.getD k default :=
      fun k hk1 hk2 => getD_listSwap_ne hk1 hk2
    apply ih
    · -- invariant on all edges not leaving `idx'`
      intro i hi hpos hne
      rw [wL] at hi
      rcases eq_or_ne i idx' with rfl | hihc
      · -- the edge from `idx` down to `idx'`
        rw [hpc, wi, wc]
        exact hle
      · rcases eq_or_ne i idx with rfl | hiidx
        · -- the edge from `i = idx`'s parent down to `idx`
          have hpne : parent_idx i ≠ i := Nat.ne_of_lt (parent_idx_lt hpos)
          have hpnc : parent_idx i ≠ idx' :=
            Nat.ne_of_lt (lt_trans (parent_idx_lt hpos) hcgt)
          rw [wne _ hpne hpnc, wi]
          exact h2 hpos idx' hclen hpc
        · rcases eq_or_ne (parent_idx i) idx with hpi | hpi
          · -- `i` is the sibling of `idx'` below `idx`
            rw [hpi, wi, wne i hiidx hihc]
            exact selectedChild_min hsel i hi hpi hpos
          · -- an edge untouched by the swap
            rw [wne i hiidx hihc, wne _ hpi hne]
            exact h1 i hi hpos hpi
    · -- the grandparent condition at `idx'`
      intro _ i hi hpi
      rw [wL] at hi
      have hpos : 0 < i := by
        rcases Nat.eq_zero_or_pos i with rfl | h
        · simp only [parent_idx] at hpi; omega
        · exact h
      have higt : idx' < i := by rw [← hpi]; exact parent_idx_lt hpos
      have hine : i ≠ idx := Nat.ne_of_gt (lt_trans hcgt higt)
      have hinc : i ≠ idx' := Nat.ne_of_gt higt
      rw [hpc, wi, wne i hine hinc]
      have h3 := h1 i hi hpos (by rw [hpi]; exact Nat.ne_of_gt hcgt)
      rw [hpi] at h3
      exact h3

/-! ### Behaviour of `pop` -/

theorem getD_dropLast {l : List α} {i : Nat} (h : i < l.length - 1) :
    l.dropLast.getD i default = l.getD i default := by
  have h1 : i < l.dropLast.length := by simp only [List.length_dropLast]; omega
  rw [List.getD_eq_getElem _ _ h1, List.getElem_dropLast,
    List.getD_eq_getElem _ _ (by omega)]

theorem pop_error_imp {v : List α} {e : String} (h : pop v = .error e) : v = [] := by
  unfold pop at h
  split at h
  · rename_i hemp
    simpa using hemp
  · exact absurd h (by simp)

theorem pop_ok_spec {v : List α} {r : α} {v' : List α} (h : pop v = .ok (r, v')) :
    v ≠ [] ∧ r = v.getD 0 default ∧
      v' = flow_down (listSwap v 0 (v.length - 1)).dropLast 0 := by
  unfold pop at h
  split at h
  · exact absurd h (by simp)
  · rename_i hemp
    have hne : v ≠ [] := by simpa [List.isEmpty_iff] using hemp
    have hlen : 0 < v.length := List.length_pos.mpr hne
    simp only [Except.ok.injEq, Prod.mk.injEq] at h
    refine ⟨hne, ?_, h.2.symm⟩
    rw [← h.1]
    exact getD_listSwap_right (by omega)

theorem pop_ok_length {v : List α} {r : α} {v' : List α}
    (h : pop v = .ok (r, v')) : v'.length + 1 = v.length := by
  obtain ⟨hne, _, rfl⟩ := pop_ok_spec h
  have hlen : 0 < v.length := List.length_pos.mpr hne
  rw [length_flow_down, List.length_dropLast, length_listSwap]
  omega

theorem pop_ok_of_ne_nil {v : List α} (hne : v ≠ []) :
    pop v = .ok (v.getD 0 default,
      flow_down (listSwap v 0 (v.length - 1)).dropLast 0) := by
  unfold pop
  rw [if_neg (by simpa [List.isEmpty_iff] using hne)]
  have hlen : 0 < v.length := List.length_pos.mpr hne
  show Except.ok ((listSwap v 0 (v.length - 1)).getD (v.length - 1) default,
    flow_down (listSwap v 0 (v.length - 1)).dropLast 0) = _
  rw [getD_listSwap_right (by omega)]

/-- `pop` preserves the heap-order invariant. -/
theorem pop_heapInv {v : List α} {r : α} {v' : List α}
    (hv : heapInv v) (h : pop v = .ok (r, v')) : heapInv v' := by
  obtain ⟨hne, _, rfl⟩ := pop_ok_spec h
  have hlen : 0 < v.length := List.length_pos.mpr hne
  apply flow_down_inv
  · intro i hi hpos hpne
    rw [List.length_dropLast, length_listSwap] at hi
    have hplt : parent_idx i < i := parent_idx_lt hpos
    have hppos : 0 < parent_idx i := Nat.pos_of_ne_zero hpne
    rw [getD_dropLast (by rw [length_listSwap]; omega),
      getD_dropLast (by rw [length_listSwap]; omega),
      getD_listSwap_ne (by omega) (by omega),
      getD_listSwap_ne (by omega) (by omega)]
    exact hv i (by omega) hpos
  · intro h0
    exact absurd h0 (lt_irrefl 0)

/-- `pop` removes exactly one copy of the returned value. -/
theorem pop_perm {v : List α} {r : α} {v' : List α}
    (h : pop v = .ok (r, v')) : (r :: v').Perm v := by
  obtain ⟨hne, hr, rfl⟩ := pop_ok_spec h
  have hlen : 0 < v.length := List.length_pos.mpr hne
  have hv1len : (listSwap v 0 (v.length - 1)).length = v.length := length_listSwap ..
  have hv1ne : listSwap v 0 (v.length - 1) ≠ [] := by
    intro hcon
    rw [hcon] at hv1len
    simp only [List.length_nil] at hv1len
    omega
  have hlast : (listSwap v 0 (v.length - 1)).getLast hv1ne = r := by
    rw [List.getLast_eq_getElem, hr,
      ← List.getD_eq_getElem (listSwap v 0 (v.length - 1)) default (by omega)]
    rw [hv1len]
    exact getD_listSwap_right (by omega)
  have step1 : (r :: flow_down (listSwap v 0 (v.length - 1)).dropLast 0).Perm
      (r :: (listSwap v 0 (v.length - 1)).dropLast) :=
    (perm_flow_down _ _).cons r
  have step2 : ((listSwap v 0 (v.length - 1)).dropLast ++ [r]).Perm
      (r :: (listSwap v 0 (v.length - 1)).dropLast) :=
    List.perm_append_singleton r _
  have step3 : (listSwap v 0 (v.length - 1)).dropLast ++ [r] = listSwap v 0 (v.length - 1) := by
    conv_lhs => rw [← hlast]
    exact List.dropLast_concat_getLast hv1ne
  have step4 : (listSwap v 0 (v.length - 1)).Perm v :=
    listSwap_perm v 0 (v.length - 1) (by omega) (by omega)
  rw [← step3] at step4
  exact (step1.trans step2.symm).trans step4

/-- `pop` returns a minimum of the heap. -/
theorem pop_min {v : List α} {r : α} {v' : List α}
    (hv : heapInv v) (h : pop v = .ok (r, v')) : ∀ x ∈ v, r ≤ x := by
  obtain ⟨hne, rfl, _⟩ := pop_ok_spec h
  intro x hx
  obtain ⟨i, hi, rfl⟩ := List.getElem_of_mem hx
  have h3 := heapInv_root_le hv i hi
  rwa [List.getD_eq_getElem _ _ hi] at h3

/-! ### Draining a heap and bulk pushing -/

/-- Repeatedly `pop` until the heap is empty, collecting the returned
values in order. -/
def popAll (v : List α) : List α :=
  match h : pop v with
  | .error _ => []
  | .ok (r, v') => r :: popAll v'
termination_by v.length
decreasing_by
  have := pop_ok_length h
  omega

/-- Push all values of `vs` in order, starting from the empty heap. -/
def pushAll (vs : List α) : List α := vs.foldl push []

theorem push_length (v : List α) (x : α) : (push v x).length = v.length + 1 := by
  unfold push
  rw [length_flow_up]
  simp

theorem push_perm (v : List α) (x : α) : (push v x).Perm (x :: v) := by
  unfold push
  exact (perm_flow_up (v ++ [x]) v.length (by simp)).trans (List.perm_append_singleton x v)

theorem foldl_push_heapInv : ∀ (vs : List α) (v : List α), heapInv v →
    heapInv (vs.foldl push v)
  | [], v, hv => hv
  | x :: vs, v, hv => foldl_push_heapInv vs (push v x) (push_heapInv hv x)

theorem foldl_push_perm : ∀ (vs : List α) (v : List α),
    (vs.foldl push v).Perm (vs ++ v)
  | [], v => by simp
  | x :: vs, v => by
    simp only [List.foldl_cons, List.cons_append]
    exact ((foldl_push_perm vs (push v x)).trans
      ((push_perm v x).append_left vs)).trans List.perm_middle

theorem heapInv_nil : heapInv ([] : List α) := by
  intro i hi
  simp at hi

theorem pushAll_heapInv (vs : List α) : heapInv (pushAll vs) :=
  foldl_push_heapInv vs [] heapInv_nil

theorem pushAll_perm (vs : List α) : (pushAll vs).Perm vs := by
  simpa using foldl_push_perm vs []

theorem popAll_spec : ∀ (v : List α), heapInv v →
    List.Sorted (· ≤ ·) (popAll v) ∧ (popAll v).Perm v := by
  intro v
  induction v using popAll.induct with
  | case1 v e h =>
    intro _
    have hred : popAll v = [] := by rw [popAll, h]
    rw [hred, pop_error_imp h]
    exact ⟨List.sorted_nil, List.Perm.refl _⟩
  | case2 v r v' h ih =>
    intro hv
    have hred : popAll v = r :: popAll v' := by rw [popAll, h]
    rw [hred]
    obtain ⟨hsort, hperm⟩ := ih (pop_heapInv hv h)
    have hmin := pop_min hv h
    have hpp := pop_perm h
    constructor
    · rw [List.sorted_cons]
      refine ⟨?_, hsort⟩
      intro b hb
      exact hmin b (hpp.subset (List.mem_cons_of_mem r (hperm.subset hb)))
    · exact (hperm.cons r).trans hpp

/-! ### Executing arbitrary call sequences -/

/-- A caller-visible operation on the heap. -/
inductive Op (α : Type) where
  | push (val : α) : Op α
  | pop : Op α

/-- Run a sequence of `push`/`pop` calls; a `pop` on an empty heap
propagates the panic as `Except.error`. -/
def runOps : List (Op α) → List α → Except String (List α)
  | [], v => .ok v
  | .push x :: ops, v => runOps ops (push v x)
  | .pop :: ops, v =>
    match pop v with
    | .error e => .error e
    | .ok (_, v') => runOps ops v'

/-- The number of `push` operations in a sequence. -/
def countPush : List (Op α) → Nat
  | [] => 0
  | .push _ :: ops => countPush ops + 1
  | .pop :: ops => countPush ops

/-- The number of `pop` operations in a sequence. -/
def countPop : List (Op α) → Nat
  | [] => 0
  | .push _ :: ops => countPop ops
  | .pop :: ops => countPop ops + 1

theorem runOps_heapInv : ∀ (ops : List (Op α)) (v w : List α), heapInv v →
    runOps ops v = .ok w → heapInv w
  | [], v, w, hv, h => by
    simp only [runOps, Except.ok.injEq] at h
    exact h ▸ hv
  | .push x :: ops, v, w, hv, h =>
    runOps_heapInv ops (push v x) w (push_heapInv hv x) h
  | .pop :: ops, v, w, hv, h => by
    simp only [runOps] at h
    split at h
    · exact absurd h (by simp)
    · rename_i r v' hpop
      exact runOps_heapInv ops v' w (pop_heapInv hv hpop) h

theorem runOps_length : ∀ (ops : List (Op α)) (v w : List α),
    runOps ops v = .ok w →
    w.length + countPop ops = v.length + countPush ops
  | [], v, w, h => by
    simp only [runOps, Except.ok.injEq] at h
    simp [countPop, countPush, h]
  | .push x :: ops, v, w, h => by
    have := runOps_length ops (push v x) w h
    rw [push_length] at this
    simp only [countPop, countPush]
    omega
  | .pop :: ops, v, w, h => by
    simp only [runOps] at h
    split at h
    · exact absurd h (by simp)
    · rename_i r v' hpop
      have h1 := runOps_length ops v' w h
      have h2 := pop_ok_length hpop
      simp only [countPop, countPush]
      omega

/-! ### Concrete evaluations used to discharge hypotheses of the claim
theorems at specific inputs -/

theorem pop_eval_123 : pop ([1, 2, 3] : List ℕ) = .ok (1, [2, 3]) := by
  have h0 : pop ([1, 2, 3] : List ℕ) = .ok (1, flow_down ([3, 2] : List ℕ) 0) := rfl
  have h1 : flow_down ([3, 2] : List ℕ) 0 = [2, 3] := by
    rw [flow_down_eq_fuel]; decide
  rw [h0, h1]

theorem runOps_eval_push3_push1_pop :
    runOps [Op.push 3, Op.push 1, Op.pop] ([] : List ℕ) = .ok [3] := by
  have e1 : push ([] : List ℕ) 3 = flow_up ([3] : List ℕ) 0 := rfl
  have e2 : push ([3] : List ℕ) 1 = flow_up ([3, 1] : List ℕ) 1 := rfl
  have f1 : flow_up ([3] : List ℕ) 0 = [3] := by rw [flow_up_eq_fuel]; decide
  have f2 : flow_up ([3, 1] : List ℕ) 1 = [1, 3] := by rw [flow_up_eq_fuel]; decide
  have e3 : pop ([1, 3] : List ℕ) = .ok (1, flow_down ([3] : List ℕ) 0) := rfl
  have f3 : flow_down ([3] : List ℕ) 0 = [3] := by rw [flow_down_eq_fuel]; decide
  simp only [runOps, e1, f1, e2, f2, e3, f3]

theorem runOps_eval_push5_push7_pop :
    runOps [Op.push 5, Op.push 7, Op.pop] ([] : List ℕ) = .ok [7] := by
  have e1 : push ([] : List ℕ) 5 = flow_up ([5] : List ℕ) 0 := rfl
  have e2 : push ([5] : List ℕ) 7 = flow_up ([5, 7] : List ℕ) 1 := rfl
  have f1 : flow_up ([5] : List ℕ) 0 = [5] := by rw [flow_up_eq_fuel]; decide
  have f2 : flow_up ([5, 7] : List ℕ) 1 = [5, 7] := by rw [flow_up_eq_fuel]; decide
  have e3 : pop ([5, 7] : List ℕ) = .ok (5, flow_down ([7] : List ℕ) 0) := rfl
  have f3 : flow_down ([7] : List ℕ) 0 = [7] := by rw [flow_down_eq_fuel]; decide
  simp only [runOps, e1, f1, e2, f2, e3, f3]

/-! ### The claims -/

/-- C1: the claim says `from_unsorted_vec` completes normally on every
input length including 0 and 1.  On the empty input the loop-bound
computation `(len - 2) >> 1` underflows on `usize` (a panic in debug
builds), so the call fails instead of returning a valid empty heap. -/
theorem C1_from_unsorted_vec_empty_underflows :
    from_unsorted_vec ([] : List ℕ) = .error "attempt to subtract with overflow" := rfl

/-- C2: the claim says `flow_down` and `flow_down_rec` are functionally
equivalent.  On the two-element heap `[1, 2]` at index 0 (with
`vec_len = 2`, the current length) they disagree: `flow_down` correctly
leaves `[1, 2]` unchanged, while `flow_down_rec`'s inverted stop test
(`return` when parent > child, swap otherwise) swaps and yields `[2, 1]`. -/
theorem C2_flow_down_rec_not_equivalent :
    flow_down ([1, 2] : List ℕ) 0 = [1, 2] ∧
      flow_down_rec ([1, 2] : List ℕ) 0 2 = [2, 1] := by
  constructor
  · rw [flow_down_eq_fuel]; decide
  · rw [flow_down_rec_eq_fuel]; decide

/-- C3: the claim says heapify-then-drain sorts every multiset including
those with 0 and 1 elements.  On a one-element input `from_unsorted_vec`
already fails: `(len - 2) >> 1` underflows for `len = 1`, so no sorted
sequence is produced. -/
theorem C3_from_unsorted_vec_singleton_fails :
    from_unsorted_vec ([7] : List ℕ) = .error "attempt to subtract with overflow" := rfl

/-- C4: on every valid non-empty heap `pop` succeeds, and whenever it
returns it removes and returns a minimum element, leaving a valid heap;
consequently draining the heap built from any pushed sequence yields the
pushed values in non-decreasing order. -/
theorem C4_pop_min_sorted_drain :
    (∀ v : List α, v ≠ [] → ∃ r v', pop v = .ok (r, v')) ∧
    (∀ (v : List α) (r : α) (v' : List α), heapInv v → pop v = .ok (r, v') →
      r ∈ v ∧ (∀ x ∈ v, r ≤ x) ∧ (r :: v').Perm v ∧ heapInv v') ∧
    (∀ vs : List α, List.Sorted (· ≤ ·) (popAll (pushAll vs)) ∧
      (popAll (pushAll vs)).Perm vs) := by
  refine ⟨?_, ?_, ?_⟩
  · intro v hne
    exact ⟨_, _, pop_ok_of_ne_nil hne⟩
  · intro v r v' hv hpop
    exact ⟨(pop_perm hpop).subset (List.mem_cons_self r v'), pop_min hv hpop,
      pop_perm hpop, pop_heapInv hv hpop⟩
  · intro vs
    obtain ⟨hs, hp⟩ := popAll_spec (pushAll vs) (pushAll_heapInv vs)
    exact ⟨hs, hp.trans (pushAll_perm vs)⟩

theorem C4_witness :
    1 ∈ ([1, 2, 3] : List ℕ) ∧ (1 : ℕ) ≤ 3 ∧
      List.Perm (1 :: [2, 3]) ([1, 2, 3] : List ℕ) ∧ heapInv ([2, 3] : List ℕ) ∧
      List.Sorted (· ≤ ·) (popAll (pushAll ([3, 1, 2] : List ℕ))) :=
  have h := C4_pop_min_sorted_drain.2.1 [1, 2, 3] 1 [2, 3] (by decide) pop_eval_123
  ⟨h.1, h.2.1 3 (by decide), h.2.2.1, h.2.2.2,
    (C4_pop_min_sorted_drain.2.2 [3, 1, 2]).1⟩

/-- C5: after any successfully completed sequence of push/pop operations
starting from the empty heap, the heap-order invariant holds: every
non-root entry is `≥` the entry at its parent index. -/
theorem C5_op_sequence_heapInv (ops : List (Op α)) (w : List α)
    (h : runOps ops [] = .ok w) : heapInv w :=
  runOps_heapInv ops [] w heapInv_nil h

theorem C5_witness : heapInv ([3] : List ℕ) :=
  C5_op_sequence_heapInv [Op.push 3, Op.push 1, Op.pop] [3] runOps_eval_push3_push1_pop

/-- C6: the claim says the sift-down step stops whenever the current
element compares `≤` the selected min-child.  On `[5, 5]` at index 0 the
root compares `≤` its selected child 1 (they are equal), yet the step does
not stop: it performs an exchange, because the code stops only on a strict
`<`. -/
theorem C6_counterexample :
    selectedChild ([5, 5] : List ℕ) 0 = some 1 ∧
      ([5, 5] : List ℕ).getD 0 default ≤ ([5, 5] : List ℕ).getD 1 default ∧
      flowDownStep ([5, 5] : List ℕ) 0 ≠ none := by decide

/-- C6 amended: during sift-down, at a position with a selected min-child
the repair stops exactly when the current element compares strictly less
than that child; otherwise (including ties) it exchanges the current
element with the selected child. -/
theorem C6_flow_down_step_iff (v : List α) (idx c : Nat)
    (h : selectedChild v idx = some c) :
    (flowDownStep v idx = none ↔ v.getD idx default < v.getD c default) ∧
      (¬ v.getD idx default < v.getD c default →
        flowDownStep v idx = some (listSwap v idx c, c)) := by
  have hred : flowDownStep v idx =
      if higher_in_tree v idx c = true then none
      else some (listSwap v idx c, c) := by
    unfold flowDownStep
    rw [h]
  rw [hred]
  by_cases hlt : v.getD idx default < v.getD c default
  · rw [if_pos (by simpa [higher_in_tree] using hlt)]
    exact ⟨⟨fun _ => hlt, fun _ => rfl⟩, fun hn => absurd hlt hn⟩
  · rw [if_neg (by simpa [higher_in_tree] using hlt)]
    exact ⟨⟨fun hcon => Option.noConfusion hcon, fun hl => absurd hl hlt⟩, fun _ => rfl⟩

theorem C6_witness :
    flowDownStep ([5, 3] : List ℕ) 0 = some (listSwap ([5, 3] : List ℕ) 0 1, 1) :=
  (C6_flow_down_step_iff [5, 3] 0 1 (by decide)).2 (by decide)

/-- C7: `pop` and `peek` on an empty heap fail with the corresponding
panic message and return no value.  (The source guards them with `assert!`,
which is active in all build profiles, unlike the `debug_assert!` used for
the internal parent-of-root check.) -/
theorem C7_pop_peek_empty_panic :
    pop ([] : List ℕ) = .error "Can't pop with no elements in binary heap!" ∧
      peek ([] : List ℕ) = .error "Can't peek with no elements in binary heap!" :=
  ⟨rfl, rfl⟩

/-- C8: a completed run of `k` pushes and `j` (necessarily non-empty) pops
from the empty heap leaves `len = k − j` elements with `j ≤ k`, and
`is_empty` is true exactly when `len` is 0. -/
theorem C8_len_accounting :
    (∀ (ops : List (Op α)) (w : List α), runOps ops [] = .ok w →
      len w = countPush ops - countPop ops ∧ countPop ops ≤ countPush ops) ∧
    (∀ v : List α, is_empty v = true ↔ len v = 0) := by
  constructor
  · intro ops w h
    have h1 := runOps_length ops [] w h
    simp only [List.length_nil] at h1
    unfold len
    omega
  · intro v
    unfold is_empty len
    rw [List.isEmpty_iff, List.length_eq_zero]

theorem C8_witness :
    (len ([7] : List ℕ) =
        countPush [Op.push (5 : ℕ), Op.push 7, Op.pop] -
          countPop [Op.push (5 : ℕ), Op.push 7, Op.pop] ∧
      countPop [Op.push (5 : ℕ), Op.push 7, Op.pop] ≤
        countPush [Op.push (5 : ℕ), Op.push 7, Op.pop]) ∧
    (is_empty ([] : List ℕ) = true ↔ len ([] : List ℕ) = 0) :=
  ⟨C8_len_accounting.1 [Op.push 5, Op.push 7, Op.pop] [7] runOps_eval_push5_push7_pop,
    C8_len_accounting.2 []⟩

/-- C9: every repair loop terminates: for every heap state and starting
index, the step-limited runs of the `flow_up` loop, the `flow_down` loop
and the `flow_down_rec` recursion complete (return `some`) within an
explicit finite bound, agreeing with the loop results. -/
theorem C9_repair_loops_terminate (v : List α) (idx : Nat) :
    flowUpFuel (idx + 1) v idx = some (flow_up v idx) ∧
      flowDownFuel (v.length + 1) v idx = some (flow_down v idx) ∧
      ∀ vec_len : Nat, flowDownRecFuel (vec_len + 1) v idx vec_len =
        some (flow_down_rec v idx vec_len) :=
  ⟨flowUpFuel_spec _ _ _ (by omega), flowDownFuel_spec _ _ _ (by omega),
    fun _ => flowDownRecFuel_spec _ _ _ _ (by omega)⟩

/-- C10: `flow_down` called at any index holding no node (`idx ≥ len`),
including index 0 on the empty array left after popping a one-element
heap, immediately stops (the node has no children) and leaves the backing
array completely unchanged. -/
theorem C10_flow_down_out_of_range (v : List α) (idx : Nat)
    (h : v.length ≤ idx) : flow_down v idx = v := by
  have hstep : flowDownStep v idx = none := by
    unfold flowDownStep
    have hsel : selectedChild v idx = none := by
      simp only [selectedChild, child_idxs]
      rw [if_pos (by omega)]
    rw [hsel]
  rw [flow_down, hstep]

theorem C10_witness : flow_down ([] : List ℕ) 0 = [] :=
  C10_flow_down_out_of_range [] 0 (by decide)

end BinaryHeap
